import Mathlib

/-!
Verification of the Brute search agent (`retro/examples/brute_multi.py`).

The program builds a tree of explored action sequences.  Each tree node
stores an optimistic value (best reward ever seen through it, `-inf` when
unvisited), a visit count, and a dictionary from action identifiers to
child nodes.  We embed the node as an inductive type whose value lives in
`WithBot ℚ` (`⊥` modelling `-np.inf`) and whose dictionary is an
association list.  Randomized choices (`random.random() < epsilon`,
`action_space.sample()`, `random.choice`) are modelled by oracle streams
supplied as input, and the deterministic environment is modelled by
functions of the action sequence applied since reset.
-/

set_option autoImplicit false

namespace BruteMulti

/-- A tree node: `value` (best cumulative reward observed through this node,
`⊥` = `-np.inf` when unvisited), `visits`, and `children`, an association
list from action identifier to child node (the Python `dict`). -/
inductive Node : Type where
  | mk (value : WithBot ℚ) (visits : ℕ) (children : List (ℕ × Node))

/-- The `value` field of a node. -/
def Node.value : Node → WithBot ℚ
  | .mk v _ _ => v

/-- The `visits` field of a node. -/
def Node.visits : Node → ℕ
  | .mk _ c _ => c

/-- The `children` field of a node. -/
def Node.children : Node → List (ℕ × Node)
  | .mk _ _ ch => ch

/-- `Node()` from the source: `value = -np.inf`, `visits = 0`, no children. -/
def Node.init : Node := .mk ⊥ 0 []

/-- Dictionary lookup `children[act]` / `act in children` on the
association list modelling the Python `dict`. -/
def lookupA : List (ℕ × Node) → ℕ → Option Node
  | [], _ => none
  | (b, n) :: rest, a => if b = a then some n else lookupA rest a

/-- Dictionary assignment `children[act] = c`: replace the binding if the
key is present, otherwise append it (insertion order of a Python `dict`). -/
def setChild : List (ℕ × Node) → ℕ → Node → List (ℕ × Node)
  | [], a, c => [(a, c)]
  | (b, n) :: rest, a, c =>
      if b = a then (b, c) :: rest else (b, n) :: setChild rest a c

/-- `update_tree(root, executed_acts, total_rew)` from the source, in
functional form: update the current node's `value`/`visits`, then walk the
executed actions, creating children as needed; returns the updated tree
and the number of newly created nodes. -/
def update_tree : Node → List ℕ → ℚ → Node × ℕ
  | node, [], rew =>
      (.mk (max (rew : WithBot ℚ) node.value) (node.visits + 1) node.children, 0)
  | node, a :: rest, rew =>
      let found := lookupA node.children a
      let child := found.getD Node.init
      let isNew := if found.isNone then 1 else 0
      let res := update_tree child rest rew
      (.mk (max (rew : WithBot ℚ) node.value) (node.visits + 1)
         (setChild node.children a res.1), isNew + res.2)

/-- Follow a path of actions down the tree; `none` when the path leaves
the explored tree. -/
def walk : Node → List ℕ → Option Node
  | n, [] => some n
  | n, a :: rest =>
      match lookupA n.children a with
      | some c => walk c rest
      | none => none

/-- Modelled from the spec: the number of actions in the executed trace
whose corresponding tree edge (from the node reached by the preceding
actions of the trace) does not exist in the tree at merge start.  The
first argument is the node reached so far (`none` once the trace has left
the tree). -/
def specNewEdges : Option Node → List ℕ → ℕ
  | _, [] => 0
  | none, _ :: rest => 1 + specNewEdges none rest
  | some n, a :: rest =>
      match lookupA n.children a with
      | some c => specNewEdges (some c) rest
      | none => 1 + specNewEdges none rest

/-- Folding a sequence of merges (`update_tree` calls) over a tree. -/
def mergeList (root : Node) (ms : List (List ℕ × ℚ)) : Node :=
  ms.foldl (fun t m => (update_tree t m.1 m.2).1) root

/-- Oracle streams standing for the random draws of `select_actions`,
indexed by the step counter: `explore k` is the outcome of
`random.random() < epsilon` at step `k`, `sample k` is the value of
`action_space.sample()` at step `k`, and `pick k` drives
`random.choice` (index into the candidate list, uniform mod its length). -/
structure Rand : Type where
  explore : ℕ → Bool
  sample : ℕ → ℕ
  pick : ℕ → ℕ

/-- `act_value[a]` of the greedy branch: the `value` of the child reached
by action `a`, `⊥` (`-np.inf`) when that child is absent. -/
def childValue (nd : Node) (a : ℕ) : WithBot ℚ :=
  match lookupA nd.children a with
  | some c => c.value
  | none => ⊥

/-- `best_value = max(act_value.values())` of the greedy branch, where the
dictionary ranges over actions `0, …, n-1`.  (Folding from `⊥` agrees
with the Python `max` whenever `n > 0`; Python raises on `n = 0`.) -/
def bestValue (nd : Node) (n : ℕ) : WithBot ℚ :=
  ((List.range n).map (childValue nd)).foldl max ⊥

/-- `best_acts` of the greedy branch: the actions (in increasing order)
whose `act_value` attains `best_value`. -/
def best_acts (nd : Node) (n : ℕ) : List ℕ :=
  (List.range n).filter (fun a => childValue nd a = bestValue nd n)

/-- One action choice of `select_actions` at a non-lost node: with the
exploration coin, a raw sample; otherwise `random.choice(best_acts)`,
modelled as indexing the candidate list by the pick oracle mod its
length. -/
def chooseAct (r : Rand) (n : ℕ) (step : ℕ) (nd : Node) : ℕ :=
  if r.explore step then r.sample step
  else
    let ba := best_acts nd n
    ba.getD (r.pick step % ba.length) 0

/-- The loop of `select_actions`: current position (`none` once the walk
has fallen off the explored tree), current step index, and remaining
steps. -/
def select_go (r : Rand) (n : ℕ) : Option Node → ℕ → ℕ → List ℕ
  | _, _, 0 => []
  | none, step, fuel + 1 => r.sample step :: select_go r n none (step + 1) fuel
  | some nd, step, fuel + 1 =>
      let act := chooseAct r n step nd
      act :: select_go r n (lookupA nd.children act) (step + 1) fuel

/-- `select_actions(root, action_space, max_episode_steps)` from the
source, with `n = action_space.n` and the random draws supplied by `r`. -/
def select_actions (root : Node) (n : ℕ) (maxSteps : ℕ) (r : Rand) : List ℕ :=
  select_go r n (some root) 0 maxSteps

/-- The tree position of the selection walk after `k` steps (`none` once
lost), described directly as a recurrence for reasoning about
`select_go`. -/
def posAt (r : Rand) (n : ℕ) (root : Node) : ℕ → Option Node
  | 0 => some root
  | k + 1 =>
      match posAt r n root k with
      | none => none
      | some nd => lookupA nd.children (chooseAct r n k nd)

/-- The action emitted by the selection walk at step `k`: a raw sample
when the position is lost, otherwise the epsilon-greedy choice at the
current node. -/
def actAt (r : Rand) (n : ℕ) (root : Node) (k : ℕ) : ℕ :=
  match posAt r n root k with
  | none => r.sample k
  | some nd => chooseAct r n k nd

/-- A deterministic environment, as the Brute assumes it: the reward and
termination flag of a `step(a)` call are functions of the sequence of
actions applied since `reset()` and of `a`. -/
structure Env : Type where
  rew : List ℕ → ℕ → ℚ
  done : List ℕ → ℕ → Bool

/-- The loop of `rollout`: the actions applied so far since reset, the
step and reward accumulators, and the remaining candidate actions. -/
def rolloutGo (env : Env) : List ℕ → ℕ → ℚ → List ℕ → ℕ × ℚ
  | _, steps, total, [] => (steps, total)
  | applied, steps, total, a :: rest =>
      let r := env.rew applied a
      if env.done applied a then (steps + 1, total + r)
      else rolloutGo env (applied ++ [a]) (steps + 1) (total + r) rest

/-- `rollout(...)` from the source: apply the candidate actions in order
from a fresh reset, stopping at termination or exhaustion; returns
`(steps, total_rew)`. -/
def rollout (env : Env) (acts : List ℕ) : ℕ × ℚ :=
  rolloutGo env [] 0 0 acts

/-- The prefix of the candidate actions actually applied by a rollout,
described directly as a recursion over the candidates (the action at
which the environment reports termination is the last one applied). -/
def execPre (env : Env) : List ℕ → List ℕ → List ℕ
  | _, [] => []
  | applied, a :: rest =>
      if env.done applied a then [a]
      else a :: execPre env (applied ++ [a]) rest

/-- The sum of per-step rewards over an executed action sequence, each
step's reward a function of the actions applied before it. -/
def rewSum (env : Env) : List ℕ → List ℕ → ℚ
  | _, [] => 0
  | applied, a :: rest => env.rew applied a + rewSum env (applied ++ [a]) rest

/-- The termination flag reported at step `i` (0-based) of a rollout of
`acts`. -/
def doneAt (env : Env) (acts : List ℕ) (i : ℕ) : Bool :=
  env.done (acts.take i) (acts.getD i 0)

/-- `Brute.get_acts` from the source: select a full-length candidate
sequence, roll it out, and return the executed prefix with its total
reward. -/
def get_acts (root : Node) (n : ℕ) (maxSteps : ℕ) (r : Rand) (env : Env) :
    List ℕ × ℚ :=
  let acts := select_actions root n maxSteps r
  let res := rollout env acts
  (acts.take res.1, res.2)

/-- `max(act_rew, key=lambda t: t[1])` from `Brute.run`: scan left to
right, replacing the best only on a strictly greater reward (so the first
occurrence of the maximum wins); `none` on an empty list (Python
raises). -/
def pymax (l : List (List ℕ × ℚ)) : Option (List ℕ × ℚ) :=
  match l with
  | [] => none
  | x :: xs => some (xs.foldl (fun best y => if best.2 < y.2 then y else best) x)

/-- `Brute.run` from the source, with the round's collected worker
results supplied as a list: merge every result into the tree (counting
new nodes), then return the result of best reward. -/
def run (root : Node) (results : List (List ℕ × ℚ)) :
    Node × ℕ × Option (List ℕ × ℚ) :=
  let merged := results.foldl
    (fun acc res =>
      let u := update_tree acc.1 res.1 res.2
      (u.1, acc.2 + u.2))
    (root, 0)
  (merged.1, merged.2, pymax results)

/-- The `while True` loop of `brute_retro`, driven by the stream `lens`
of per-round returned action-sequence lengths: given remaining fuel, the
current round index and the cumulative timestep counter, it returns the
number of rounds run when the counter exceeds the limit within the fuel,
and `none` when the fuel runs out first. -/
def driver_run (lens : ℕ → ℕ) (limit : ℕ) : ℕ → ℕ → ℕ → Option ℕ
  | 0, _, _ => none
  | fuel + 1, k, t =>
      let t' := t + lens k
      if limit < t' then some (k + 1) else driver_run lens limit fuel (k + 1) t'

/-- The bare unvisited root the tree starts from (`Brute._root`). -/
def bareRoot : Node := Node.init

/-- The concrete tree of the spec's greedy test: a root with a single
explored child under action `2` holding value `10`, all other children
absent. -/
def greedyTree : Node :=
  .mk ⊥ 1 [(2, .mk ((10 : ℚ) : WithBot ℚ) 1 [])]

/-- A concrete random oracle: the exploration coin always comes up
greedy, samples and choice indices are all `0`. -/
def constRand : Rand := ⟨fun _ => false, fun _ => 0, fun _ => 0⟩

/-- A concrete deterministic environment: every step yields reward `1`
and the episode terminates on the step taken after exactly one action has
been applied (so every rollout of a long enough candidate runs two
steps). -/
def constEnv : Env := ⟨fun _ _ => 1, fun applied _ => applied.length == 1⟩

/-! Basic simp lemmas for the node accessors and the dictionary model. -/

@[simp]
theorem Node.value_mk (v : WithBot ℚ) (c : ℕ) (ch : List (ℕ × Node)) :
    (Node.mk v c ch).value = v := rfl

@[simp]
theorem Node.visits_mk (v : WithBot ℚ) (c : ℕ) (ch : List (ℕ × Node)) :
    (Node.mk v c ch).visits = c := rfl

@[simp]
theorem Node.children_mk (v : WithBot ℚ) (c : ℕ) (ch : List (ℕ × Node)) :
    (Node.mk v c ch).children = ch := rfl

theorem lookupA_setChild_self (ch : List (ℕ × Node)) (a : ℕ) (c : Node) :
    lookupA (setChild ch a c) a = some c := by
  induction ch with
  | nil => simp [setChild, lookupA]
  | cons hd tl ih =>
      obtain ⟨b, n⟩ := hd
      by_cases hba : b = a
      · subst hba; simp [setChild, lookupA]
      · simp [setChild, lookupA, hba, ih]

theorem lookupA_setChild_ne (ch : List (ℕ × Node)) (a b : ℕ) (c : Node)
    (h : b ≠ a) : lookupA (setChild ch a c) b = lookupA ch b := by
  have hab : ¬a = b := fun hc => h hc.symm
  induction ch with
  | nil =>
      rw [setChild, lookupA, lookupA, if_neg hab]; rfl
  | cons hd tl ih =>
      obtain ⟨d, n⟩ := hd
      by_cases hda : d = a
      · subst hda
        rw [setChild, if_pos rfl, lookupA, lookupA, if_neg hab, if_neg hab]
      · rw [setChild, if_neg hda, lookupA, lookupA]
        by_cases hdb : d = b
        · rw [if_pos hdb, if_pos hdb]
        · rw [if_neg hdb, if_neg hdb, ih]

@[simp]
theorem update_tree_fst_value (root : Node) (acts : List ℕ) (rew : ℚ) :
    (update_tree root acts rew).1.value = max (rew : WithBot ℚ) root.value := by
  cases acts <;> rfl

@[simp]
theorem update_tree_fst_visits (root : Node) (acts : List ℕ) (rew : ℚ) :
    (update_tree root acts rew).1.visits = root.visits + 1 := by
  cases acts <;> rfl

/-- One merge never removes a node, never lowers its value, and never
lowers its visit count. -/
theorem walk_update_tree (p : List ℕ) :
    ∀ (root : Node) (acts : List ℕ) (rew : ℚ) (n : Node),
      walk root p = some n →
      ∃ n', walk (update_tree root acts rew).1 p = some n' ∧
        n.value ≤ n'.value ∧ n.visits ≤ n'.visits := by
  induction p with
  | nil =>
      intro root acts rew n h
      obtain rfl : root = n := by simpa [walk] using h
      refine ⟨(update_tree root acts rew).1, rfl, ?_, ?_⟩
      · rw [update_tree_fst_value]; exact le_max_right _ _
      · rw [update_tree_fst_visits]; exact Nat.le_succ _
  | cons a p' ih =>
      intro root acts rew n h
      rw [walk] at h
      cases hc : lookupA root.children a with
      | none => rw [hc] at h; cases h
      | some c =>
          rw [hc] at h
          cases acts with
          | nil =>
              refine ⟨n, ?_, le_refl _, le_refl _⟩
              rw [update_tree, walk]
              simpa [hc] using h
          | cons b rest =>
              by_cases hba : b = a
              · subst hba
                obtain ⟨n', hw, hv, hcnt⟩ := ih c rest rew n h
                refine ⟨n', ?_, hv, hcnt⟩
                rw [update_tree, walk]
                simp only [Node.children_mk, hc, Option.getD_some,
                  lookupA_setChild_self]
                exact hw
              · refine ⟨n, ?_, le_refl _, le_refl _⟩
                rw [update_tree, walk]
                simp only [Node.children_mk,
                  lookupA_setChild_ne _ _ _ _ fun hab => hba hab.symm, hc]
                exact h

/-- Walking any path through a node with no children immediately counts
every remaining edge as missing. -/
theorem specNewEdges_leafless (v : WithBot ℚ) (c : ℕ) (rest : List ℕ) :
    specNewEdges (some (Node.mk v c [])) rest = specNewEdges none rest := by
  cases rest <;> rfl

/-- A merge leaves every node outside the merged path (every node whose
address is not an initial segment of the executed trace) untouched,
subtree included. -/
theorem walk_update_tree_off (p : List ℕ) :
    ∀ (root : Node) (acts : List ℕ) (rew : ℚ),
      acts.take p.length ≠ p →
      walk (update_tree root acts rew).1 p = walk root p := by
  induction p with
  | nil => intro root acts rew hne; exact absurd rfl hne
  | cons a p' ih =>
      intro root acts rew hne
      cases acts with
      | nil =>
          rw [update_tree, walk, walk]
          rfl
      | cons b rest =>
          by_cases hba : b = a
          · subst hba
            have hne' : rest.take p'.length ≠ p' := by
              intro hp; exact hne (by simp [List.take, hp])
            rw [update_tree, walk, walk]
            simp only [Node.children_mk, lookupA_setChild_self]
            cases hc : lookupA root.children b with
            | some c =>
                simp only [hc, Option.getD_some]
                exact ih c rest rew hne'
            | none =>
                simp only [hc, Option.getD_none]
                rw [ih Node.init rest rew hne']
                cases p' with
                | nil => exact absurd rfl hne'
                | cons a' p'' => rfl
          · rw [update_tree, walk, walk]
            simp only [Node.children_mk,
              lookupA_setChild_ne _ _ _ _ fun hab => hba hab.symm]

/-- C1: across any sequence of merges, every node already in the tree
survives, its `value` never decreases, and its `visits` never
decreases. -/
theorem mergeList_monotone (root : Node) (ms : List (List ℕ × ℚ))
    (p : List ℕ) (n : Node) (h : walk root p = some n) :
    ∃ n', walk (mergeList root ms) p = some n' ∧
      n.value ≤ n'.value ∧ n.visits ≤ n'.visits := by
  induction ms generalizing root n with
  | nil => exact ⟨n, h, le_refl _, le_refl _⟩
  | cons m ms ih =>
      obtain ⟨n1, h1, hv1, hc1⟩ := walk_update_tree p root m.1 m.2 n h
      obtain ⟨n2, h2, hv2, hc2⟩ := ih _ _ h1
      exact ⟨n2, by simpa [mergeList] using h2, le_trans hv1 hv2,
        le_trans hc1 hc2⟩

/-- Witness for C1: merging `([0], 5)` into the bare root keeps the root
present with non-decreased statistics. -/
theorem mergeList_monotone_witness :
    ∃ n', walk (mergeList bareRoot [([0], 5)]) [] = some n' ∧
      bareRoot.value ≤ n'.value ∧ bareRoot.visits ≤ n'.visits :=
  mergeList_monotone bareRoot [([0], 5)] [] bareRoot rfl

/-- C2: `update_tree` returns exactly the number of actions in the
executed trace whose tree edge (from the node reached by the preceding
actions) did not exist at merge start. -/
theorem update_tree_new_nodes (root : Node) (acts : List ℕ) (rew : ℚ) :
    (update_tree root acts rew).2 = specNewEdges (some root) acts := by
  induction acts generalizing root with
  | nil => rfl
  | cons a rest ih =>
      rw [update_tree, specNewEdges]
      cases hc : lookupA root.children a with
      | some c => simp [hc, ih]
      | none =>
          simp only [hc, Option.getD_none, Option.isNone_none, if_true]
          rw [ih, Node.init, specNewEdges_leafless]

/-- C10: a merge touches only the nodes on the merged path — every node
whose address is not an initial segment of the executed trace keeps its
value, visits and children exactly (its whole subtree is unchanged) — and
a merge never removes a node. -/
theorem update_tree_frame (root : Node) (acts : List ℕ) (rew : ℚ) :
    (∀ p, acts.take p.length ≠ p →
        walk (update_tree root acts rew).1 p = walk root p) ∧
    (∀ p n, walk root p = some n →
        ∃ n', walk (update_tree root acts rew).1 p = some n') := by
  constructor
  · intro p hp; exact walk_update_tree_off p root acts rew hp
  · intro p n h
    obtain ⟨n', hw, _, _⟩ := walk_update_tree p root acts rew n h
    exact ⟨n', hw⟩

/-- Witness for C10: merging `([0], 1)` into the greedy test tree leaves
the node at address `[2]` (off the merged path) exactly unchanged, and
the root survives the merge. -/
theorem update_tree_frame_witness :
    walk (update_tree greedyTree [0] 1).1 [2] = walk greedyTree [2] ∧
      ∃ n', walk (update_tree greedyTree [0] 1).1 [] = some n' :=
  ⟨(update_tree_frame greedyTree [0] 1).1 [2] (by decide),
    (update_tree_frame greedyTree [0] 1).2 [] greedyTree rfl⟩

/-- The selection loop always emits exactly as many actions as it has
remaining steps, whatever the current position. -/
theorem select_go_length (r : Rand) (n : ℕ) :
    ∀ (fuel : ℕ) (node : Option Node) (step : ℕ),
      (select_go r n node step fuel).length = fuel := by
  intro fuel
  induction fuel with
  | zero => intro node step; cases node <;> rfl
  | succ fuel ih =>
      intro node step
      cases node with
      | none => rw [select_go, List.length_cons, ih]
      | some nd => rw [select_go, List.length_cons, ih]

/-- The selection loop started at the position reached after `k` steps
emits exactly the per-step actions `actAt (k)`, `actAt (k+1)`, …. -/
theorem select_go_eq_actAt (r : Rand) (n : ℕ) (root : Node) :
    ∀ (fuel k : ℕ),
      select_go r n (posAt r n root k) k fuel =
        (List.range' k fuel).map (actAt r n root) := by
  intro fuel
  induction fuel with
  | zero => intro k; cases posAt r n root k <;> rfl
  | succ fuel ih =>
      intro k
      rw [List.range'_succ, List.map_cons]
      cases hp : posAt r n root k with
      | none =>
          have hnext : posAt r n root (k + 1) = none := by rw [posAt, hp]
          have hact : actAt r n root k = r.sample k := by rw [actAt, hp]
          have h2 := ih (k + 1)
          rw [hnext] at h2
          rw [select_go, hact, h2]
      | some nd =>
          have hnext : posAt r n root (k + 1) =
              lookupA nd.children (chooseAct r n k nd) := by rw [posAt, hp]
          have hact : actAt r n root k = chooseAct r n k nd := by rw [actAt, hp]
          have h2 := ih (k + 1)
          rw [hnext] at h2
          rw [select_go, hact, h2]

/-- `select_actions` is step-by-step the action stream `actAt`. -/
theorem select_actions_eq_actAt (root : Node) (n m : ℕ) (r : Rand) :
    select_actions root n m r = (List.range m).map (actAt r n root) := by
  have h := select_go_eq_actAt r n root m 0
  rw [posAt] at h
  rw [select_actions, h, List.range_eq_range']

/-- C4: `select_actions` always returns a sequence of exactly
`max_episode_steps` actions, for every tree, action-space size and
randomness. -/
theorem select_actions_full_length (root : Node) (n m : ℕ) (r : Rand) :
    (select_actions root n m r).length = m :=
  select_go_length r n m (some root) 0

/-- C5: during one selection, the initial position is the root (never
lost); once the position is lost it stays lost forever, and from then on
every emitted action is a raw sample of the action space (no tree
lookup), the emitted sequence being exactly the per-step stream
`actAt`. -/
theorem select_lost_forever (root : Node) (n m : ℕ) (r : Rand) :
    select_actions root n m r = (List.range m).map (actAt r n root) ∧
    posAt r n root 0 = some root ∧
    (∀ k, posAt r n root k = none → posAt r n root (k + 1) = none) ∧
    (∀ k, posAt r n root k = none → actAt r n root k = r.sample k) := by
  refine ⟨select_actions_eq_actAt root n m r, rfl, ?_, ?_⟩
  · intro k hk; rw [posAt, hk]
  · intro k hk; rw [actAt, hk]

/-- Witness for C5: with the all-greedy oracle over a one-action space,
the bare root's position is lost after one step, stays lost, and the
subsequent action is a raw sample. -/
theorem select_lost_forever_witness :
    posAt constRand 1 bareRoot 2 = none ∧
      actAt constRand 1 bareRoot 1 = constRand.sample 1 :=
  ⟨(select_lost_forever bareRoot 1 5 constRand).2.2.1 1 rfl,
    (select_lost_forever bareRoot 1 5 constRand).2.2.2 1 rfl⟩

/-! Bounds for a left fold of `max`, used to reason about
`best_value = max(act_value.values())`. -/

theorem foldl_max_le_init {α : Type} [LinearOrder α] (l : List α) :
    ∀ b : α, b ≤ l.foldl max b := by
  induction l with
  | nil => intro b; exact le_refl b
  | cons a l ih =>
      intro b
      exact le_trans (le_max_left b a) (ih (max b a))

theorem foldl_max_le_of_mem {α : Type} [LinearOrder α] (l : List α) :
    ∀ (b x : α), x ∈ l → x ≤ l.foldl max b := by
  induction l with
  | nil => intro b x hx; cases hx
  | cons a l ih =>
      intro b x hx
      rcases List.mem_cons.1 hx with rfl | hx
      · exact le_trans (le_max_right b x) (foldl_max_le_init l (max b x))
      · exact ih (max b a) x hx

theorem foldl_max_le {α : Type} [LinearOrder α] (l : List α) :
    ∀ b c : α, b ≤ c → (∀ x ∈ l, x ≤ c) → l.foldl max b ≤ c := by
  induction l with
  | nil => intro b c hb _; exact hb
  | cons a l ih =>
      intro b c hb hl
      exact ih (max b a) c (max_le hb (hl a (List.mem_cons_self a l)))
        fun x hx => hl x (List.mem_cons_of_mem a hx)

/-- Every in-range action's score is bounded by the best score. -/
theorem childValue_le_bestValue (nd : Node) (n b : ℕ) (hb : b < n) :
    childValue nd b ≤ bestValue nd n :=
  foldl_max_le_of_mem _ ⊥ _
    (List.mem_map_of_mem (childValue nd) (List.mem_range.2 hb))

/-- Membership in `best_acts`: exactly the in-range actions whose score
attains the best score. -/
theorem mem_best_acts (nd : Node) (n a : ℕ) :
    a ∈ best_acts nd n ↔ a < n ∧ childValue nd a = bestValue nd n := by
  simp [best_acts, List.mem_filter, List.mem_range]

/-- The greedy test tree scores action `2` with `10` and every other
action with `-inf`. -/
theorem childValue_greedyTree (a : ℕ) :
    childValue greedyTree a =
      if a = 2 then ((10 : ℚ) : WithBot ℚ) else ⊥ := by
  by_cases h : a = 2
  · subst h; rfl
  · rw [if_neg h]
    rw [childValue, greedyTree]
    simp only [Node.children_mk, lookupA]
    rw [if_neg fun hc : 2 = a => h hc.symm]

/-- The best score of the greedy test tree over any action space
containing action `2` is `10`. -/
theorem bestValue_greedyTree (n : ℕ) (h : 2 < n) :
    bestValue greedyTree n = ((10 : ℚ) : WithBot ℚ) := by
  refine le_antisymm ?_ ?_
  · refine foldl_max_le _ _ _ bot_le ?_
    intro x hx
    obtain ⟨a, _, rfl⟩ := List.mem_map.1 hx
    rw [childValue_greedyTree]
    by_cases ha : a = 2
    · rw [if_pos ha]
    · rw [if_neg ha]; exact bot_le
  · have := childValue_le_bestValue greedyTree n 2 h
    rwa [childValue_greedyTree, if_pos rfl] at this

/-- Filtering `range n` for the single value `2`. -/
theorem range_filter_two (n : ℕ) (h : 3 ≤ n) :
    (List.range n).filter (fun a => a == 2) = [2] := by
  induction n, h using Nat.le_induction with
  | base => rfl
  | succ n hn ih =>
      rw [List.range_succ, List.filter_append, ih]
      have : (n == 2) = false := by
        simp only [beq_eq_false_iff_ne]
        omega
      simp [this]

/-- On the greedy test tree the greedy candidate list is exactly
`[2]`. -/
theorem best_acts_greedyTree (n : ℕ) (h : 2 < n) :
    best_acts greedyTree n = [2] := by
  rw [best_acts]
  rw [List.filter_congr (q := fun a => a == 2) ?_]
  · exact range_filter_two n h
  · intro a _
    by_cases ha : a = 2
    · subst ha
      simp [childValue_greedyTree, bestValue_greedyTree n h]
    · have h1 : childValue greedyTree a = ⊥ := by
        rw [childValue_greedyTree, if_neg ha]
      rw [h1, bestValue_greedyTree n h]
      simp [ha]

/-- The bare root scores every action with `-inf`. -/
theorem childValue_bareRoot (a : ℕ) : childValue bareRoot a = ⊥ := rfl

/-- The bare root's best score is `-inf`. -/
theorem bestValue_bareRoot (n : ℕ) : bestValue bareRoot n = ⊥ := by
  refine le_antisymm ?_ (foldl_max_le_init _ ⊥)
  refine foldl_max_le _ _ _ (le_refl _) ?_
  intro x hx
  obtain ⟨a, _, rfl⟩ := List.mem_map.1 hx
  rw [childValue_bareRoot]

/-- On the bare root every action ties at `-inf`, so the greedy candidate
list is the whole action space. -/
theorem best_acts_bareRoot (n : ℕ) : best_acts bareRoot n = List.range n := by
  rw [best_acts]
  refine List.filter_eq_self.2 ?_
  intro a _
  simp [childValue_bareRoot, bestValue_bareRoot]

/-- C3: in the exploitation branch every in-range action is scored by the
value of the child it leads to (`-inf` when absent), the candidate list
is exactly the argmax set, and on the spec's test tree (one explored
child under action `2` of value `10`) a greedy step chooses `2` with
probability 1 (whatever the choice oracle says). -/
theorem greedy_selection :
    (∀ (nd : Node) (n a : ℕ),
        a ∈ best_acts nd n ↔ a < n ∧ childValue nd a = bestValue nd n) ∧
    (∀ (nd : Node) (n b : ℕ), b < n → childValue nd b ≤ bestValue nd n) ∧
    (∀ n : ℕ, 2 < n → best_acts greedyTree n = [2]) ∧
    (∀ (r : Rand) (k n : ℕ), r.explore k = false → 2 < n →
        chooseAct r n k greedyTree = 2) := by
  refine ⟨mem_best_acts, fun nd n b hb => childValue_le_bestValue nd n b hb,
    best_acts_greedyTree, ?_⟩
  intro r k n hexp hn
  rw [chooseAct, if_neg (by rw [hexp]; exact Bool.false_ne_true)]
  rw [best_acts_greedyTree n hn]
  simp [Nat.mod_one]

/-- Witness for C3: with four actions, the greedy candidate list of the
test tree is `[2]` and a greedy step under the all-greedy oracle chooses
action `2`. -/
theorem greedy_selection_witness :
    best_acts greedyTree 4 = [2] ∧ chooseAct constRand 4 0 greedyTree = 2 :=
  ⟨greedy_selection.2.2.1 4 (by decide),
    greedy_selection.2.2.2 constRand 0 4 rfl (by decide)⟩

/-- After its first step from the bare root the walk is lost. -/
theorem posAt_bareRoot_succ (r : Rand) (n : ℕ) :
    ∀ k, posAt r n bareRoot (k + 1) = none := by
  intro k
  induction k with
  | zero => rfl
  | succ k ih => rw [posAt, ih]

/-- C8: on a bare unvisited root the selector still produces the
full-length sequence; every action ties at `-inf` so the greedy candidate
list is the entire action space, the position is lost from step 1 on, and
every action is drawn uniformly from the full action space (step 0 by a
uniform index into `range n`, later steps by raw samples). -/
theorem select_bare_root (n m : ℕ) (r : Rand) (h : 0 < n) :
    (select_actions bareRoot n m r).length = m ∧
    best_acts bareRoot n = List.range n ∧
    (∀ k, 0 < k → posAt r n bareRoot k = none) ∧
    (∀ k, 0 < k → actAt r n bareRoot k = r.sample k) ∧
    actAt r n bareRoot 0 =
      (if r.explore 0 then r.sample 0
       else (List.range n).getD (r.pick 0 % n) 0) := by
  have hpos : ∀ k, 0 < k → posAt r n bareRoot k = none := by
    intro k hk
    cases k with
    | zero => cases hk
    | succ k => exact posAt_bareRoot_succ r n k
  refine ⟨select_go_length r n m (some bareRoot) 0, best_acts_bareRoot n,
    hpos, ?_, ?_⟩
  · intro k hk
    rw [actAt, hpos k hk]
  · rw [actAt]
    show chooseAct r n 0 bareRoot = _
    rw [chooseAct]
    by_cases hexp : r.explore 0
    · rw [if_pos hexp, if_pos hexp]
    · rw [if_neg hexp, if_neg hexp]
      simp only [best_acts_bareRoot n, List.length_range]

/-- Witness for C8: with one action and two steps, the bare-root
selection has length 2 and the greedy candidate list is the whole
space. -/
theorem select_bare_root_witness :
    (select_actions bareRoot 1 2 constRand).length = 2 ∧
      best_acts bareRoot 1 = List.range 1 :=
  ⟨(select_bare_root 1 2 constRand (by decide)).1,
    (select_bare_root 1 2 constRand (by decide)).2.1⟩

/-! The rollout loop versus its accumulator-free description. -/

/-- The rollout loop accumulates exactly the length of and the reward sum
over the executed action sequence. -/
theorem rolloutGo_eq (env : Env) :
    ∀ (rest applied : List ℕ) (s : ℕ) (t : ℚ),
      rolloutGo env applied s t rest =
        (s + (execPre env applied rest).length,
          t + rewSum env applied (execPre env applied rest)) := by
  intro rest
  induction rest with
  | nil => intro applied s t; simp [rolloutGo, execPre, rewSum]
  | cons a rest ih =>
      intro applied s t
      rw [rolloutGo, execPre]
      by_cases hd : env.done applied a = true
      · rw [if_pos hd, if_pos hd]
        rw [rewSum, rewSum, List.length_cons, List.length_nil]
        simp
      · rw [if_neg hd, if_neg hd]
        rw [ih, rewSum, List.length_cons]
        simp only [Prod.mk.injEq]
        exact ⟨by omega, by ring⟩

/-- The executed sequence is an initial segment of the candidates. -/
theorem execPre_take (env : Env) :
    ∀ (rest applied : List ℕ),
      rest.take (execPre env applied rest).length = execPre env applied rest := by
  intro rest
  induction rest with
  | nil => intro applied; rfl
  | cons a rest ih =>
      intro applied
      rw [execPre]
      by_cases hd : env.done applied a
      · rw [if_pos hd]; rfl
      · rw [if_neg hd, List.length_cons, List.take_succ_cons, ih]

/-- The executed sequence is never longer than the candidates. -/
theorem execPre_length_le (env : Env) :
    ∀ (rest applied : List ℕ),
      (execPre env applied rest).length ≤ rest.length := by
  intro rest
  induction rest with
  | nil => intro applied; exact le_refl 0
  | cons a rest ih =>
      intro applied
      rw [execPre]
      by_cases hd : env.done applied a
      · rw [if_pos hd]; simp
      · rw [if_neg hd, List.length_cons, List.length_cons]
        exact Nat.succ_le_succ (ih (applied ++ [a]))

/-- A nonempty candidate sequence executes at least one step. -/
theorem execPre_length_pos (env : Env) (applied : List ℕ) :
    ∀ rest : List ℕ, rest ≠ [] → 1 ≤ (execPre env applied rest).length := by
  intro rest hrest
  cases rest with
  | nil => exact absurd rfl hrest
  | cons a rest =>
      rw [execPre]
      by_cases hd : env.done applied a
      · rw [if_pos hd]; exact le_refl 1
      · rw [if_neg hd, List.length_cons]; exact Nat.succ_le_succ (Nat.zero_le _)

/-- No step strictly before the last executed one reports
termination. -/
theorem execPre_no_early (env : Env) :
    ∀ (rest applied : List ℕ) (i : ℕ),
      i + 1 < (execPre env applied rest).length →
      env.done (applied ++ rest.take i) (rest.getD i 0) = false := by
  intro rest
  induction rest with
  | nil => intro applied i hi; cases hi
  | cons a rest ih =>
      intro applied i hi
      rw [execPre] at hi
      by_cases hd : env.done applied a
      · rw [if_pos hd, List.length_singleton] at hi
        omega
      · rw [if_neg hd, List.length_cons] at hi
        cases i with
        | zero =>
            simpa using Bool.of_not_eq_true hd
        | succ j =>
            have := ih (applied ++ [a]) j (by omega)
            rw [List.take_succ_cons, List.getD_cons_succ]
            rwa [List.append_assoc, List.singleton_append] at this

/-- When the rollout stops before exhausting the candidates, the last
executed step reported termination. -/
theorem execPre_stops_on_done (env : Env) :
    ∀ (rest applied : List ℕ),
      (execPre env applied rest).length < rest.length →
      env.done (applied ++ rest.take ((execPre env applied rest).length - 1))
        (rest.getD ((execPre env applied rest).length - 1) 0) = true := by
  intro rest
  induction rest with
  | nil => intro applied h; cases h
  | cons a rest ih =>
      intro applied h
      rw [execPre] at h ⊢
      by_cases hd : env.done applied a
      · rw [if_pos hd] at h ⊢
        simpa using hd
      · rw [if_neg hd] at h ⊢
        simp only [List.length_cons] at h ⊢
        have hpos : 1 ≤ (execPre env (applied ++ [a]) rest).length := by
          have hne : rest ≠ [] := by
            intro hr
            rw [hr] at h
            simp [execPre] at h
          exact execPre_length_pos env (applied ++ [a]) rest hne
        have := ih (applied ++ [a]) (by omega)
        have hidx : (execPre env (applied ++ [a]) rest).length + 1 - 1 =
            ((execPre env (applied ++ [a]) rest).length - 1) + 1 := by omega
        rw [hidx, List.take_succ_cons, List.getD_cons_succ]
        rwa [List.append_assoc, List.singleton_append] at this

/-- C6: a rollout applies the candidate actions in order from a fresh
reset and stops at termination or exhaustion: the step count is at most
the number of candidates, the executed sequence `acts[:steps]` is exactly
the applied actions and has length `steps`, the returned reward is the
sum of the per-step rewards over exactly that executed sequence, no step
strictly before the last reports termination, and a stop before
exhaustion happens exactly at a terminating step. -/
theorem rollout_spec (env : Env) (acts : List ℕ) :
    (rollout env acts).1 ≤ acts.length ∧
    acts.take (rollout env acts).1 = execPre env [] acts ∧
    (acts.take (rollout env acts).1).length = (rollout env acts).1 ∧
    (rollout env acts).2 = rewSum env [] (acts.take (rollout env acts).1) ∧
    (∀ i, i + 1 < (rollout env acts).1 → doneAt env acts i = false) ∧
    ((rollout env acts).1 < acts.length →
        doneAt env acts ((rollout env acts).1 - 1) = true) := by
  have hro : rollout env acts =
      ((execPre env [] acts).length, rewSum env [] (execPre env [] acts)) := by
    rw [rollout, rolloutGo_eq]
    simp
  rw [hro]
  refine ⟨execPre_length_le env acts [], execPre_take env acts [], ?_, ?_, ?_, ?_⟩
  · show (acts.take (execPre env [] acts).length).length = _
    rw [execPre_take env acts []]
  · show rewSum env [] (execPre env [] acts) =
      rewSum env [] (acts.take (execPre env [] acts).length)
    rw [execPre_take env acts []]
  · intro i hi
    have h5 := execPre_no_early env acts [] i hi
    rw [List.nil_append] at h5
    rw [doneAt]
    exact h5
  · intro hlt
    have h6 := execPre_stops_on_done env acts [] hlt
    rw [List.nil_append] at h6
    rw [doneAt]
    exact h6

/-- Witness for C6: in the concrete environment terminating on the
second step, a three-action candidate executes two steps, no termination
is reported at step 0, and termination is reported at step 1. -/
theorem rollout_spec_witness :
    doneAt constEnv [0, 0, 0] 0 = false ∧ doneAt constEnv [0, 0, 0] 1 = true :=
  ⟨(rollout_spec constEnv [0, 0, 0]).2.2.2.2.1 0 (by decide),
    (rollout_spec constEnv [0, 0, 0]).2.2.2.2.2 (by decide)⟩

/-- The left-to-right scan with strict comparison returns an element of
maximal reward, and the first element of that reward. -/
theorem pymax_cons_spec (xs : List (List ℕ × ℚ)) :
    ∀ x : List ℕ × ℚ,
      ∃ r, pymax (x :: xs) = some r ∧ r ∈ x :: xs ∧
        (∀ y ∈ x :: xs, y.2 ≤ r.2) ∧
        (x :: xs).find? (fun y => decide (y.2 = r.2)) = some r := by
  induction xs with
  | nil =>
      intro x
      refine ⟨x, rfl, List.mem_singleton_self x, ?_, ?_⟩
      · intro y hy
        rw [List.mem_singleton.1 hy]
      · simp [List.find?]
  | cons y ys ih =>
      intro x
      by_cases hxy : x.2 < y.2
      · obtain ⟨r, hr, hmem, hbound, hfind⟩ := ih y
        have hpy : pymax (x :: y :: ys) = pymax (y :: ys) := by
          rw [pymax, pymax, List.foldl_cons, if_pos hxy]
        refine ⟨r, hpy ▸ hr, List.mem_cons_of_mem x hmem, ?_, ?_⟩
        · intro z hz
          rcases List.mem_cons.1 hz with rfl | hz
          · exact le_trans (le_of_lt hxy) (hbound y (List.mem_cons_self y ys))
          · exact hbound z hz
        · have hxr : x.2 ≠ r.2 :=
            ne_of_lt (lt_of_lt_of_le hxy (hbound y (List.mem_cons_self y ys)))
          rw [List.find?_cons_of_neg _ (by simp [hxr])]
          exact hfind
      · obtain ⟨r, hr, hmem, hbound, hfind⟩ := ih x
        have hyx : y.2 ≤ x.2 := le_of_not_lt hxy
        have hpy : pymax (x :: y :: ys) = pymax (x :: ys) := by
          rw [pymax, pymax, List.foldl_cons, if_neg hxy]
        have hxr : x.2 ≤ r.2 := hbound x (List.mem_cons_self x ys)
        refine ⟨r, hpy ▸ hr, ?_, ?_, ?_⟩
        · rcases List.mem_cons.1 hmem with rfl | hm
          · exact List.mem_cons_self r (y :: ys)
          · exact List.mem_cons_of_mem x (List.mem_cons_of_mem y hm)
        · intro z hz
          rcases List.mem_cons.1 hz with rfl | hz
          · exact hxr
          · rcases List.mem_cons.1 hz with rfl | hz
            · exact le_trans hyx hxr
            · exact hbound z (List.mem_cons_of_mem x hz)
        · by_cases hpx : x.2 = r.2
          · have hx_first : (x :: ys).find? (fun y => decide (y.2 = r.2)) =
                some x := List.find?_cons_of_pos ys (by simp [hpx])
            have hrx : r = x := by
              rw [hx_first] at hfind
              exact (Option.some.inj hfind).symm
            rw [List.find?_cons_of_pos _ (by simp [hpx]), hrx]
          · have hyr : y.2 ≠ r.2 := by
              intro hy
              exact hpx (le_antisymm hxr (hy ▸ hyx))
            rw [List.find?_cons_of_neg _ (by simp [hpx])] at hfind
            rw [List.find?_cons_of_neg _ (by simp [hpx]),
              List.find?_cons_of_neg _ (by simp [hyr])]
            exact hfind

/-- C7: `Brute.run` returns, among the round's collected results, a
result of maximal reward, and on ties the first occurrence in the
collected order (the scan replaces the best only on a strictly greater
reward). -/
theorem run_selects_best (root : Node) (results : List (List ℕ × ℚ))
    (x : List ℕ × ℚ) (xs : List (List ℕ × ℚ)) (h : results = x :: xs) :
    ∃ r, (run root results).2.2 = some r ∧ r ∈ results ∧
      (∀ y ∈ results, y.2 ≤ r.2) ∧
      results.find? (fun y => decide (y.2 = r.2)) = some r := by
  subst h
  have hrun : (run root (x :: xs)).2.2 = pymax (x :: xs) := rfl
  rw [hrun]
  exact pymax_cons_spec xs x

/-- Witness for C7: on the concrete round results
`[([0], 1), ([1], 3), ([2], 3)]` the returned result is of maximal
reward `3` and is the first of the two tied results. -/
theorem run_selects_best_witness :
    ∃ r, (run bareRoot [([0], 1), ([1], 3), ([2], 3)]).2.2 = some r ∧
      r ∈ [([0], 1), ([1], 3), ([2], 3)] ∧
      (∀ y ∈ [([0], 1), ([1], 3), ([2], 3)], y.2 ≤ r.2) ∧
      List.find? (fun y => decide (y.2 = r.2)) [([0], 1), ([1], 3), ([2], 3)] =
        some r :=
  run_selects_best bareRoot _ ([0], 1) [([1], 3), ([2], 3)] rfl

/-- As long as every round advances the timestep counter by at least one,
the driver loop exits within `limit + 1` further rounds. -/
theorem driver_run_exits (lens : ℕ → ℕ) (limit : ℕ)
    (hl : ∀ k, 1 ≤ lens k) :
    ∀ (fuel k t : ℕ), limit ≤ t + fuel →
      ∃ rounds, driver_run lens limit (fuel + 1) k t = some rounds := by
  intro fuel
  induction fuel with
  | zero =>
      intro k t ht
      refine ⟨k + 1, ?_⟩
      rw [driver_run, if_pos ?_]
      have := hl k
      omega
  | succ fuel ih =>
      intro k t ht
      rw [driver_run]
      by_cases hstop : limit < t + lens k
      · exact ⟨k + 1, by rw [if_pos hstop]⟩
      · rw [if_neg hstop]
        refine ih (k + 1) (t + lens k) ?_
        have := hl k
        omega

/-- C9: the driver loop terminates for every finite budget once every
round's returned sequence has length at least 1, which holds whenever the
configured maximum episode length is at least 1: a round's executed
sequence (`get_acts`) is then nonempty. -/
theorem driver_terminates :
    (∀ (limit : ℕ) (lens : ℕ → ℕ), (∀ k, 1 ≤ lens k) →
        ∃ rounds, driver_run lens limit (limit + 1) 0 0 = some rounds) ∧
    (∀ (root : Node) (n m : ℕ) (r : Rand) (env : Env), 1 ≤ m →
        1 ≤ (get_acts root n m r env).1.length) := by
  constructor
  · intro limit lens hl
    exact driver_run_exits lens limit hl limit 0 0 (by omega)
  · intro root n m r env hm
    rw [get_acts]
    have hacts : (select_actions root n m r).length = m :=
      select_go_length r n m (some root) 0
    have hne : select_actions root n m r ≠ [] := by
      intro hnil
      rw [hnil] at hacts
      simp at hacts
      omega
    have hro : (rollout env (select_actions root n m r)).1 =
        (execPre env [] (select_actions root n m r)).length := by
      rw [rollout, rolloutGo_eq]
      simp
    simp only [hro]
    rw [execPre_take env (select_actions root n m r) []]
    exact execPre_length_pos env [] (select_actions root n m r) hne

/-- Witness for C9: with a unit budget stream and limit `0` the loop
stops, and a one-step round from the bare root executes at least one
action. -/
theorem driver_terminates_witness :
    (∃ rounds, driver_run (fun _ => 1) 0 (0 + 1) 0 0 = some rounds) ∧
      1 ≤ (get_acts bareRoot 1 1 constRand constEnv).1.length :=
  ⟨driver_terminates.1 0 (fun _ => 1) (fun _ => le_refl 1),
    driver_terminates.2 bareRoot 1 1 constRand constEnv (le_refl 1)⟩

end BruteMulti
